import Mathlib

/-!
# Verification of the crytic-to-foundry trace normalizer

Shallow embedding of `test/invariants/crytictofoundry.py` and
`libraries-to-link.py`.  Text is modelled as `List Char`.  Each Python
`re.sub(pattern, repl, data)` (and `str.replace`) is embedded as a
left-to-right scanner `applyRW find`: at every position the scanner asks
`find` for a match starting there; on success it emits the replacement and
resumes after the consumed text, otherwise it copies one character.  Each
`find` function transcribes the concrete regular expression of the source,
including its greedy/backtracking behaviour:

* `findWait`   - `data.replace("*wait* ", "")`
* `findA`      - `re.sub(r"([a-zA-z]+\(.*\)) (Time delay: .*\n)", r"\1\n    \2", data)`
* `findR3`     - `re.sub(r"Time delay: (\d+) .*\n", r"vm.warp(\1)\n", data)`
* `findR4`     - `re.sub(r"\)", r");", data)`
* `findR5`     - `re.sub(r"0x([a-fA-F0-9]+),", r"address(0x\1),", data)`
* `findF`      - `re.sub(r"(function test\(\) public \{)(.*\n)+(  \})", r"\1\n" + content + r"  }", data)`

`outputToSol` chains the first five in source order; `fillFile` applies the
last one.  File input/output of the script is elided: the functions here are
the pure text transformations the script applies between its reads and
writes.  `\d` is modelled as the ASCII digits (the traces are ASCII).
-/

/-- The noise marker removed by `data.replace("*wait* ", "")`. -/
def waitPat : List Char := ("*wait* ").toList

/-- The literal `Time delay: ` of rules 2 and 3. -/
def tdColon : List Char := ("Time delay: ").toList

/-- The literal `) (Time delay: ` separator of rule 2: one space then the marker. -/
def spTD : List Char := ' ' :: tdColon

/-- The four-space indentation inserted by rule 2's replacement. -/
def indent4 : List Char := ("    ").toList

/-- The head of the clock-advance statement emitted by rule 3. -/
def warpPre : List Char := ("vm.warp(").toList

/-- The head of the address-construction expression emitted by rule 5. -/
def addrPre : List Char := ("address(0x").toList

/-- The anchor signature searched for by `fillFile`. -/
def anchorStr : List Char := ("function test() public \x7b").toList

/-- The two-space-indented closing brace terminating the anchor body. -/
def sp2Brace : List Char := ("  \x7d").toList

/-- The character class `[a-zA-z]` of rule 2: ASCII codes 65 to 122
(the sloppy upper bound `z` of the source makes the second range `A-z`). -/
def inAZaz (c : Char) : Bool := 65 ≤ c.toNat && c.toNat ≤ 122

/-- The character class `[a-fA-F0-9]` of rule 5. -/
def isHexC (c : Char) : Bool :=
  c.isDigit || (97 ≤ c.toNat && c.toNat ≤ 102) || (65 ≤ c.toNat && c.toNat ≤ 70)

/-- Boolean prefix test used in the match functions. -/
def pfx : List Char → List Char → Bool
  | [], _ => true
  | _ :: _, [] => false
  | a :: as, b :: bs => a == b && pfx as bs

/-- Boolean substring test: some suffix of the text starts with the pattern. -/
def containsSub (p : List Char) : List Char → Bool
  | [] => pfx p []
  | c :: cs => pfx p (c :: cs) || containsSub p cs

/-- A match function consumes at least one character whenever it fires. -/
def Consuming (f : List Char → Option (List Char × List Char)) : Prop :=
  ∀ s r rest, f s = some (r, rest) → rest.length < s.length

/-- Fuelled left-to-right rewriting scanner.  The fuel is always instantiated
with the length of the text, which dominates the recursion because every
match consumes at least one character; the `rest.length ≤ n` guard only makes
the recursion structural and is never false for the match functions used. -/
def applyRWB (f : List Char → Option (List Char × List Char)) :
    Nat → List Char → List Char
  | _, [] => []
  | 0, s => s
  | n + 1, c :: cs =>
    match f (c :: cs) with
    | some (r, rest) =>
        if rest.length ≤ n then r ++ applyRWB f n rest else c :: applyRWB f n cs
    | none => c :: applyRWB f n cs

/-- Global leftmost non-overlapping rewriting: the semantics shared by
`re.sub` (count 0) and `str.replace`. -/
def applyRW (f : List Char → Option (List Char × List Char)) (s : List Char) :
    List Char :=
  applyRWB f s.length s

/-- Match function of `data.replace("*wait* ", "")`: the marker at this
position, replaced by nothing. -/
def findWait (s : List Char) : Option (List Char × List Char) :=
  if pfx waitPat s then some ([], s.drop waitPat.length) else none

/-- The backtracking of `\(.*\) (Time delay: ` inside one line: split the
line at the last `)` that is followed by ` Time delay: `.  Returns the part
before that parenthesis and the part after it. -/
def splitLastDelay : List Char → Option (List Char × List Char)
  | [] => none
  | c :: cs =>
    match splitLastDelay cs with
    | some (a, b) => some (c :: a, b)
    | none => if c == ')' && pfx spTD cs then some ([], cs) else none

/-- Match function of rule 2, `([a-zA-z]+\(.*\)) (Time delay: .*\n)`, at one
position: a maximal nonempty `[a-zA-z]` run, a literal `(`, then — since `.`
does not match a newline — the rest of the current line, inside which the
greedy `.*\)` backtracks to the last `)` followed by ` Time delay: `; the
final `.*\n` extends the match exactly to the end of the line.  The returned
replacement realises `\1\n    \2`. -/
def findA (s : List Char) : Option (List Char × List Char) :=
  let run := s.takeWhile inAZaz
  if run.isEmpty then none else
  match s.dropWhile inAZaz with
  | '(' :: s2 =>
    let lb := s2.takeWhile (fun c => c != '\n')
    match s2.dropWhile (fun c => c != '\n') with
    | '\n' :: s4 =>
      match splitLastDelay lb with
      | some (a, b) =>
          some (run ++ '(' :: a ++ ')' :: '\n' :: indent4 ++ b.drop 1 ++ ['\n'], s4)
      | none => none
    | _ => none
  | _ => none

/-- Match function of rule 3, `Time delay: (\d+) .*\n`: the literal marker, a
maximal nonempty digit run, a space, then the rest of the line and its
newline.  The replacement realises `vm.warp(\1)\n`. -/
def findR3 (s : List Char) : Option (List Char × List Char) :=
  if pfx tdColon s then
    let s1 := s.drop tdColon.length
    let ds := s1.takeWhile Char.isDigit
    if ds.isEmpty then none else
    match s1.dropWhile Char.isDigit with
    | ' ' :: s3 =>
      match s3.dropWhile (fun c => c != '\n') with
      | '\n' :: s5 => some (warpPre ++ ds ++ [')', '\n'], s5)
      | _ => none
    | _ => none
  else none

/-- Match function of rule 4, `\)` replaced by `);`: fires at every closing
parenthesis. -/
def findR4 : List Char → Option (List Char × List Char)
  | [] => none
  | c :: cs => if c = ')' then some ([')', ';'], cs) else none

/-- Match function of rule 5, `0x([a-fA-F0-9]+),`: the literal `0x`, a
maximal nonempty hex-digit run, then a comma.  The replacement realises
`address(0x\1),`. -/
def findR5 : List Char → Option (List Char × List Char)
  | '0' :: 'x' :: s2 =>
    let hs := s2.takeWhile isHexC
    if hs.isEmpty then none else
    (match s2.dropWhile isHexC with
     | ',' :: s4 => some (addrPre ++ hs ++ [')', ','], s4)
     | _ => none)
  | _ => none

/-- Consume one complete line: everything up to and including the first
newline. -/
def consumeTail (s : List Char) : Option (List Char) :=
  match s.dropWhile (fun c => c != '\n') with
  | '\n' :: rest => some rest
  | _ => none

/-- Fuelled backtracking of `(.*\n)+(  \})`: consume one or more complete
lines greedily, preferring as many as possible, then require the two-space
brace; returns the text after the consumed `  \x7d`.  Each repetition of
`.*\n` deterministically consumes exactly one line, and the regex engine
backtracks from the maximal number of lines downwards, so the successful
candidate is the last line start (after at least one full line) at which the
brace text begins. -/
def greedyLinesB : Nat → List Char → Option (List Char)
  | 0, _ => none
  | n + 1, s =>
    match consumeTail s with
    | none => none
    | some rest =>
      match greedyLinesB n rest with
      | some r => some r
      | none => if pfx sp2Brace rest then some (rest.drop sp2Brace.length) else none

/-- The `(.*\n)+(  \})` part of the `fillFile` pattern. -/
def greedyLines (s : List Char) : Option (List Char) := greedyLinesB s.length s

/-- Match function of the `fillFile` pattern
`(function test\(\) public \{)(.*\n)+(  \})` with replacement
`\1\n` + content + `  \x7d`. -/
def findF (content : List Char) (s : List Char) : Option (List Char × List Char) :=
  if pfx anchorStr s then
    match greedyLines (s.drop anchorStr.length) with
    | some rest => some (anchorStr ++ '\n' :: content ++ sp2Brace, rest)
    | none => none
  else none

/-- Rule 1 of `outputToSol`: noise stripping. -/
def stripWait (s : List Char) : List Char := applyRW findWait s

/-- Rule 2 of `outputToSol`: delay-line reflow. -/
def reflowDelay (s : List Char) : List Char := applyRW findA s

/-- Rule 3 of `outputToSol`: delay-to-statement rewrite. -/
def delayToWarp (s : List Char) : List Char := applyRW findR3 s

/-- Rule 4 of `outputToSol`: statement termination. -/
def terminateParens (s : List Char) : List Char := applyRW findR4 s

/-- Rule 5 of `outputToSol`: address literal rewrite. -/
def rewriteAddress (s : List Char) : List Char := applyRW findR5 s

/-- The trace normalizer `outputToSol` of the source, as the pure
transformation it applies to the text read from `example.txt`: the five
rewrite rules in their fixed source order. -/
def outputToSol (data : List Char) : List Char :=
  rewriteAddress (terminateParens (delayToWarp (reflowDelay (stripWait data))))

/-- The template injector `fillFile` of the source, as the pure
transformation applied to the template text before it is written back. -/
def fillFile (content data : List Char) : List Char :=
  applyRW (findF content) data

/-- The library-linkage extractor of `libraries-to-link.py`:
`"--libraries " + " --libraries ".join(libraries)`. -/
def cli_option (libraries : List (List Char)) : List Char :=
  ("--libraries ").toList ++ List.intercalate ((" --libraries ").toList) libraries

/-- Text made of complete newline-terminated lines, one per list element. -/
def linesText : List (List Char) → List Char
  | [] => []
  | l :: ls => l ++ '\n' :: linesText ls

/-- Number of newline characters: the line count of newline-terminated text. -/
def countNL (s : List Char) : Nat := s.count '\n'

/-- Rule 4 viewed as a per-character expansion. -/
def expandParen (c : Char) : List Char := if c = ')' then [')', ';'] else [c]

/-- `expandParen` mapped over a whole text. -/
def expandText : List Char → List Char
  | [] => []
  | c :: cs => expandParen c ++ expandText cs

/-- A structured item of a raw fuzzer trace: a call record `name(args)` or a
standalone `Time delay: value description` annotation. -/
inductive TraceItem where
  | call : List Char → List Char → TraceItem
  | delay : List Char → List Char → TraceItem

/-- The raw text of one trace item, one line each. -/
def renderItem : TraceItem → List Char
  | .call n a => n ++ '(' :: a ++ [')', '\n']
  | .delay d t => tdColon ++ d ++ ' ' :: t ++ ['\n']

/-- The raw text of a whole trace. -/
def renderTrace : List TraceItem → List Char
  | [] => []
  | it :: tr => renderItem it ++ renderTrace tr

/-- Lexical well-formedness of the modelled trace alphabet: call names are
nonempty `[a-zA-z]` words without an `x` (which keeps the address rule
quiescent on the trace; that rule's own behaviour is settled separately),
argument text avoids the few characters that would embed another rule's
pattern inside a call line, delay values are nonempty digit runs, and delay
descriptions are words and spaces. -/
@[reducible] def WFItem : TraceItem → Prop
  | .call n a => n ≠ [] ∧ (∀ c ∈ n, inAZaz c = true ∧ c ≠ 'x') ∧
      (∀ c ∈ a, c ≠ '\n' ∧ c ≠ ')' ∧ c ≠ ':' ∧ c ≠ '*' ∧ c ≠ 'x')
  | .delay d t => d ≠ [] ∧ (∀ c ∈ d, c.isDigit = true) ∧
      (∀ c ∈ t, inAZaz c = true ∨ c = ' ')

instance : DecidablePred WFItem := fun it =>
  match it with
  | .call n a =>
      inferInstanceAs (Decidable (n ≠ [] ∧ (∀ c ∈ n, inAZaz c = true ∧ c ≠ 'x') ∧
        (∀ c ∈ a, c ≠ '\n' ∧ c ≠ ')' ∧ c ≠ ':' ∧ c ≠ '*' ∧ c ≠ 'x')))
  | .delay d t =>
      inferInstanceAs (Decidable (d ≠ [] ∧ (∀ c ∈ d, c.isDigit = true) ∧
        (∀ c ∈ t, inAZaz c = true ∨ c = ' ')))

/-- The intermediate line of one trace item after rules 1-3 of `outputToSol`. -/
def midItem : TraceItem → List Char
  | .call n a => n ++ '(' :: a ++ [')', '\n']
  | .delay d _ => warpPre ++ d ++ [')', '\n']

/-- The intermediate text of a whole trace after rules 1-3. -/
def midTrace : List TraceItem → List Char
  | [] => []
  | it :: tr => midItem it ++ midTrace tr

/-- The normalized statement line `outputToSol` produces for one trace item. -/
def finalItem : TraceItem → List Char
  | .call n a => n ++ '(' :: a ++ [')', ';', '\n']
  | .delay d _ => warpPre ++ d ++ [')', ';', '\n']

/-- The normalized text of a whole trace. -/
def finalTrace : List TraceItem → List Char
  | [] => []
  | it :: tr => finalItem it ++ finalTrace tr

/-! ## Basic facts about `pfx` and `containsSub` -/

theorem pfx_iff (p : List Char) : ∀ s, pfx p s = true ↔ ∃ t, s = p ++ t := by
  induction p with
  | nil => intro s; simp [pfx]
  | cons a as ih =>
      intro s
      cases s with
      | nil =>
          simp only [pfx]
          constructor
          · intro h; cases h
          · rintro ⟨t, ht⟩; cases ht
      | cons b bs =>
          simp only [pfx, Bool.and_eq_true, beq_iff_eq, ih bs]
          constructor
          · rintro ⟨rfl, t, rfl⟩; exact ⟨t, rfl⟩
          · rintro ⟨t, ht⟩
            injection ht with h1 h2
            exact ⟨h1.symm, t, h2⟩

theorem pfx_append (p t : List Char) : pfx p (p ++ t) = true :=
  (pfx_iff p _).2 ⟨t, rfl⟩

theorem pfx_mem {p s : List Char} (h : pfx p s = true) {c : Char} (hc : c ∈ p) :
    c ∈ s := by
  obtain ⟨t, rfl⟩ := (pfx_iff p s).1 h
  exact List.mem_append_left t hc

theorem containsSub_iff (p : List Char) :
    ∀ s, containsSub p s = true ↔ ∃ k, pfx p (s.drop k) = true := by
  intro s
  induction s with
  | nil =>
      simp only [containsSub]
      constructor
      · intro h; exact ⟨0, h⟩
      · rintro ⟨k, hk⟩; simpa using hk
  | cons c cs ih =>
      simp only [containsSub, Bool.or_eq_true, ih]
      constructor
      · rintro (h | ⟨k, hk⟩)
        · exact ⟨0, h⟩
        · exact ⟨k + 1, by simpa using hk⟩
      · rintro ⟨k, hk⟩
        cases k with
        | zero => exact Or.inl (by simpa using hk)
        | succ k => exact Or.inr ⟨k, by simpa using hk⟩

theorem pfx_drop_of_not_containsSub {p s : List Char}
    (h : containsSub p s = false) (k : Nat) : pfx p (s.drop k) = false := by
  by_contra hk
  have : containsSub p s = true :=
    (containsSub_iff p s).2 ⟨k, by simpa using Bool.of_not_eq_false hk⟩
  simp [this] at h

theorem containsSub_of_eq {p s u v : List Char} (h : s = u ++ p ++ v) :
    containsSub p s = true := by
  refine (containsSub_iff p s).2 ⟨u.length, ?_⟩
  subst h
  rw [List.append_assoc, List.drop_left]
  exact pfx_append p v

theorem containsSub_mem {p s : List Char} (h : containsSub p s = true)
    {c : Char} (hc : c ∈ p) : c ∈ s := by
  obtain ⟨k, hk⟩ := (containsSub_iff p s).1 h
  exact List.mem_of_mem_drop (pfx_mem hk hc)

/-! ## Generic facts about the rewriting scanner -/

theorem applyRWB_irrel (f : List Char → Option (List Char × List Char))
    (hf : Consuming f) :
    ∀ n, ∀ s m, s.length ≤ n → s.length ≤ m → applyRWB f n s = applyRWB f m s := by
  intro n
  induction n with
  | zero =>
      intro s m hn _
      have hs : s = [] := List.eq_nil_of_length_eq_zero (Nat.le_zero.1 hn)
      subst hs
      cases m <;> rfl
  | succ n ih =>
      intro s m hn hm
      cases s with
      | nil => cases m <;> rfl
      | cons c cs =>
          have hm1 : 0 < m := lt_of_lt_of_le (Nat.succ_pos _) hm
          obtain ⟨m', rfl⟩ : ∃ m', m = m' + 1 :=
            ⟨m - 1, (Nat.succ_pred_eq_of_pos hm1).symm⟩
          cases hfind : f (c :: cs) with
          | none =>
              simp only [applyRWB, hfind]
              exact congrArg (c :: ·) (ih cs m' (by simpa using hn) (by simpa using hm))
          | some pr =>
              obtain ⟨r, rest⟩ := pr
              have hlt : rest.length < cs.length + 1 := by simpa using hf _ _ _ hfind
              have h1 : rest.length ≤ n := by
                simp only [List.length_cons] at hn; omega
              have h2 : rest.length ≤ m' := by
                simp only [List.length_cons] at hm; omega
              simp only [applyRWB, hfind, if_pos h1, if_pos h2]
              rw [ih rest m' h1 h2]

theorem applyRW_nil (f : List Char → Option (List Char × List Char)) :
    applyRW f [] = [] := rfl

theorem applyRW_cons_none (f : List Char → Option (List Char × List Char))
    {c : Char} {cs : List Char} (h : f (c :: cs) = none) :
    applyRW f (c :: cs) = c :: applyRW f cs := by
  show applyRWB f (c :: cs).length (c :: cs) = c :: applyRWB f cs.length cs
  simp only [List.length_cons, applyRWB, h]

theorem applyRW_fire (f : List Char → Option (List Char × List Char))
    (hf : Consuming f) {s r rest : List Char} (h : f s = some (r, rest)) :
    applyRW f s = r ++ applyRW f rest := by
  cases s with
  | nil =>
      have := hf _ _ _ h
      simp at this
  | cons c cs =>
      have hlt : rest.length < cs.length + 1 := by simpa using hf _ _ _ h
      have hle : rest.length ≤ cs.length := Nat.lt_succ_iff.1 hlt
      show applyRWB f (c :: cs).length (c :: cs) = r ++ applyRW f rest
      simp only [List.length_cons, applyRWB, h, if_pos hle]
      rw [applyRWB_irrel f hf cs.length rest rest.length hle (le_refl _)]
      rfl

theorem applyRW_skip (f : List Char → Option (List Char × List Char)) :
    ∀ (x y : List Char), (∀ k, k < x.length → f ((x ++ y).drop k) = none) →
      applyRW f (x ++ y) = x ++ applyRW f y := by
  intro x
  induction x with
  | nil => intro y _; rfl
  | cons c x' ih =>
      intro y h
      have h0 : f (c :: (x' ++ y)) = none := by simpa using h 0 (Nat.succ_pos _)
      have hrec := ih y (fun k hk => by
        simpa using h (k + 1) (by simpa using Nat.succ_lt_succ hk))
      rw [List.cons_append, applyRW_cons_none f h0, hrec, List.cons_append]

theorem applyRW_id (f : List Char → Option (List Char × List Char)) :
    ∀ (s : List Char), (∀ k, f (s.drop k) = none) → applyRW f s = s := by
  intro s
  induction s with
  | nil => intro _; rfl
  | cons c cs ih =>
      intro h
      rw [applyRW_cons_none f (by simpa using h 0), ih]
      intro k
      simpa using h (k + 1)

/-! ## takeWhile and dropWhile across a stopper character -/

theorem takeWhile_append_neg {p : Char → Bool} {c0 : Char} (h0 : p c0 = false)
    (w z : List Char) : (w ++ c0 :: z).takeWhile p = w.takeWhile p := by
  induction w with
  | nil => simp [List.takeWhile_cons, h0]
  | cons a w' ih => cases hpa : p a <;> simp [List.takeWhile_cons, hpa, ih]

theorem dropWhile_append_neg {p : Char → Bool} {c0 : Char} (h0 : p c0 = false)
    (w z : List Char) : (w ++ c0 :: z).dropWhile p = w.dropWhile p ++ c0 :: z := by
  induction w with
  | nil => simp [List.dropWhile_cons, h0]
  | cons a w' ih => cases hpa : p a <;> simp [List.dropWhile_cons, hpa, ih]

theorem mem_of_mem_dropWhile {p : Char → Bool} {l : List Char} {c : Char}
    (h : c ∈ l.dropWhile p) : c ∈ l := by
  induction l with
  | nil => simpa using h
  | cons a l' ih =>
      rw [List.dropWhile_cons] at h
      by_cases hpa : p a = true
      · rw [if_pos hpa] at h
        exact List.mem_cons_of_mem a (ih h)
      · rw [if_neg hpa] at h
        exact h

/-! ## Decomposition of the match functions -/

theorem findWait_some {s r rest : List Char} (h : findWait s = some (r, rest)) :
    r = [] ∧ s = waitPat ++ rest := by
  unfold findWait at h
  split at h
  · rename_i hp
    simp only [Option.some.injEq, Prod.mk.injEq] at h
    obtain ⟨rfl, hrest⟩ := h
    obtain ⟨t, rfl⟩ := (pfx_iff waitPat s).1 hp
    rw [List.drop_left] at hrest
    exact ⟨rfl, by rw [hrest]⟩
  · exact absurd h (by simp)

theorem consuming_findWait : Consuming findWait := by
  intro s r rest h
  obtain ⟨-, rfl⟩ := findWait_some h
  have : waitPat.length = 7 := by decide
  simp [List.length_append, this]

theorem splitLastDelay_some :
    ∀ {l a b : List Char}, splitLastDelay l = some (a, b) →
      l = a ++ ')' :: b ∧ pfx spTD b = true := by
  intro l
  induction l with
  | nil => intro a b h; cases h
  | cons c cs ih =>
      intro a b h
      unfold splitLastDelay at h
      cases hrec : splitLastDelay cs with
      | some pr =>
          obtain ⟨a', b'⟩ := pr
          rw [hrec] at h
          simp only [Option.some.injEq, Prod.mk.injEq] at h
          obtain ⟨rfl, rfl⟩ := h
          obtain ⟨hcs, hb⟩ := ih hrec
          exact ⟨by rw [hcs]; rfl, hb⟩
      | none =>
          rw [hrec] at h
          by_cases hguard : (c == ')' && pfx spTD cs) = true
          · rw [if_pos hguard] at h
            simp only [Bool.and_eq_true, beq_iff_eq] at hguard
            obtain ⟨rfl, hb⟩ := hguard
            simp only [Option.some.injEq, Prod.mk.injEq] at h
            obtain ⟨rfl, rfl⟩ := h
            exact ⟨rfl, hb⟩
          · rw [if_neg hguard] at h
            cases h

theorem splitLastDelay_none {l : List Char}
    (h : ∀ u v, l = u ++ ')' :: v → pfx spTD v = false) :
    splitLastDelay l = none := by
  by_contra hne
  obtain ⟨pr, hpr⟩ := Option.ne_none_iff_exists'.1 hne
  obtain ⟨a, b⟩ := pr
  obtain ⟨hl, hb⟩ := splitLastDelay_some hpr
  rw [h a b hl] at hb
  cases hb

theorem colon_mem_spTD : ':' ∈ spTD := by decide

theorem splitLastDelay_none_of_no_colon {l : List Char} (h : ':' ∉ l) :
    splitLastDelay l = none := by
  refine splitLastDelay_none (fun u v hl => ?_)
  by_contra hp
  have hp' : pfx spTD v = true := Bool.of_not_eq_false hp
  have : ':' ∈ l := by
    rw [hl]
    exact List.mem_append_right u (List.mem_cons_of_mem _ (pfx_mem hp' colon_mem_spTD))
  exact h this

theorem findA_some {s r rest : List Char} (h : findA s = some (r, rest)) :
    ∃ run a b, run ≠ [] ∧ (∀ c ∈ run, inAZaz c = true) ∧
      (∀ c ∈ a, c ≠ '\n') ∧ (∀ c ∈ b, c ≠ '\n') ∧ pfx spTD b = true ∧
      s = run ++ '(' :: a ++ ')' :: b ++ '\n' :: rest ∧
      r = run ++ '(' :: a ++ ')' :: '\n' :: indent4 ++ b.drop 1 ++ ['\n'] := by
  simp only [findA] at h
  split at h
  · cases h
  rename_i hrun
  split at h
  rotate_left
  · cases h
  rename_i s2 hdrop
  split at h
  rotate_left
  · cases h
  rename_i s4 hdrop2
  split at h
  rotate_left
  · cases h
  rename_i a b hsplit
  simp only [Option.some.injEq, Prod.mk.injEq] at h
  obtain ⟨hr, hrest⟩ := h
  obtain ⟨hlb, hb⟩ := splitLastDelay_some hsplit
  have hs : s = s.takeWhile inAZaz ++ '(' :: s2 := by
    conv_lhs => rw [← List.takeWhile_append_dropWhile inAZaz s]
    rw [hdrop]
  have hs2 : s2 = s2.takeWhile (fun c => c != '\n') ++ '\n' :: s4 := by
    conv_lhs => rw [← List.takeWhile_append_dropWhile (fun c => c != '\n') s2]
    rw [hdrop2]
  refine ⟨s.takeWhile inAZaz, a, b, by simpa [List.isEmpty_iff] using hrun,
    fun c hc => List.mem_takeWhile_imp hc, ?_, ?_, hb, ?_, ?_⟩
  · intro c hc
    have hmem : c ∈ s2.takeWhile (fun c => c != '\n') := by
      rw [hlb]; exact List.mem_append_left _ hc
    have hpc := List.mem_takeWhile_imp hmem
    simpa using hpc
  · intro c hc
    have hmem : c ∈ s2.takeWhile (fun c => c != '\n') := by
      rw [hlb]
      exact List.mem_append_right _ (List.mem_cons_of_mem _ hc)
    have hpc := List.mem_takeWhile_imp hmem
    simpa using hpc
  · conv_lhs => rw [hs]
    rw [hs2, hlb, hrest]
    simp
  · rw [← hr]

theorem consuming_findA : Consuming findA := by
  intro s r rest h
  obtain ⟨run, a, b, -, -, -, -, -, hs, -⟩ := findA_some h
  rw [hs]
  simp [List.length_append]
  omega

theorem findR3_some {s r rest : List Char} (h : findR3 s = some (r, rest)) :
    ∃ ds mid, ds ≠ [] ∧ (∀ c ∈ ds, c.isDigit = true) ∧ (∀ c ∈ mid, c ≠ '\n') ∧
      s = tdColon ++ ds ++ ' ' :: mid ++ '\n' :: rest ∧
      r = warpPre ++ ds ++ [')', '\n'] := by
  simp only [findR3] at h
  split at h
  rotate_left
  · cases h
  rename_i hp
  split at h
  · cases h
  rename_i hds
  split at h
  rotate_left
  · cases h
  rename_i s3 hdw
  split at h
  rotate_left
  · cases h
  rename_i s5 hdw2
  simp only [Option.some.injEq, Prod.mk.injEq] at h
  obtain ⟨hr, hrest⟩ := h
  obtain ⟨t, rfl⟩ := (pfx_iff tdColon s).1 hp
  rw [List.drop_left] at hds hdw hr
  have ht : t = t.takeWhile Char.isDigit ++ ' ' :: s3 := by
    conv_lhs => rw [← List.takeWhile_append_dropWhile Char.isDigit t]
    rw [hdw]
  have hs3 : s3 = s3.takeWhile (fun c => c != '\n') ++ '\n' :: s5 := by
    conv_lhs => rw [← List.takeWhile_append_dropWhile (fun c => c != '\n') s3]
    rw [hdw2]
  refine ⟨t.takeWhile Char.isDigit, s3.takeWhile (fun c => c != '\n'),
    by simpa [List.isEmpty_iff] using hds,
    fun c hc => List.mem_takeWhile_imp hc,
    ?_, ?_, ?_⟩
  · intro c hc
    have hpc := List.mem_takeWhile_imp hc
    simpa using hpc
  · subst hrest
    conv_lhs => rw [ht]
    conv_lhs => rw [hs3]
    simp
  · rw [← hr]

theorem consuming_findR3 : Consuming findR3 := by
  intro s r rest h
  obtain ⟨ds, mid, -, -, -, hs, -⟩ := findR3_some h
  rw [hs]
  have : tdColon.length = 12 := by decide
  simp [List.length_append, this]
  omega

theorem findR4_some {s r rest : List Char} (h : findR4 s = some (r, rest)) :
    s = ')' :: rest ∧ r = [')', ';'] := by
  cases s with
  | nil => cases h
  | cons c cs =>
      by_cases hc : c = ')'
      · subst hc
        have hfd : findR4 (')' :: cs) = some ([')', ';'], cs) := by simp [findR4]
        rw [hfd] at h
        simp only [Option.some.injEq, Prod.mk.injEq] at h
        obtain ⟨rfl, rfl⟩ := h
        exact ⟨rfl, rfl⟩
      · have hfd : findR4 (c :: cs) = none := by simp [findR4, hc]
        rw [hfd] at h
        cases h

theorem consuming_findR4 : Consuming findR4 := by
  intro s r rest h
  obtain ⟨rfl, -⟩ := findR4_some h
  simp

theorem findR5_some {s r rest : List Char} (h : findR5 s = some (r, rest)) :
    ∃ hs, hs ≠ [] ∧ (∀ c ∈ hs, isHexC c = true) ∧
      s = '0' :: 'x' :: hs ++ ',' :: rest ∧
      r = addrPre ++ hs ++ [')', ','] := by
  simp only [findR5] at h
  split at h
  rotate_left
  · cases h
  rename_i s2
  split at h
  · cases h
  rename_i hhs
  split at h
  rotate_left
  · cases h
  rename_i s4 hdw
  simp only [Option.some.injEq, Prod.mk.injEq] at h
  obtain ⟨hr, hrest⟩ := h
  have hs2 : s2 = s2.takeWhile isHexC ++ ',' :: s4 := by
    conv_lhs => rw [← List.takeWhile_append_dropWhile isHexC s2]
    rw [hdw]
  refine ⟨s2.takeWhile isHexC, by simpa [List.isEmpty_iff] using hhs,
    fun c hc => List.mem_takeWhile_imp hc, ?_, ?_⟩
  · subst hrest
    conv_lhs => rw [hs2]
    simp
  · rw [← hr]

theorem consuming_findR5 : Consuming findR5 := by
  intro s r rest h
  obtain ⟨hs, -, -, hseq, -⟩ := findR5_some h
  rw [hseq]
  simp [List.length_append]
  omega

/-! ## The greedy line matching of the fillFile pattern -/

theorem dropWhile_eq_nil_of_all {p : Char → Bool} :
    ∀ {l : List Char}, (∀ c ∈ l, p c = true) → l.dropWhile p = [] := by
  intro l
  induction l with
  | nil => intro _; rfl
  | cons a l' ih =>
      intro h
      rw [List.dropWhile_cons, if_pos (h a (List.mem_cons_self a l'))]
      exact ih (fun c hc => h c (List.mem_cons_of_mem a hc))

theorem consumeTail_nil : consumeTail [] = none := rfl

theorem consumeTail_line {l t : List Char} (hl : ∀ c ∈ l, c ≠ '\n') :
    consumeTail (l ++ '\n' :: t) = some t := by
  unfold consumeTail
  have hd : (l ++ '\n' :: t).dropWhile (fun c => c != '\n') = '\n' :: t := by
    rw [dropWhile_append_neg (by simp) l t,
      dropWhile_eq_nil_of_all (fun c hc => by simpa using hl c hc)]
    rfl
  rw [hd]
  rfl

theorem consumeTail_some {s rest : List Char} (h : consumeTail s = some rest) :
    ∃ w, (∀ c ∈ w, c ≠ '\n') ∧ s = w ++ '\n' :: rest := by
  unfold consumeTail at h
  split at h
  · rename_i rest' hdw
    simp only [Option.some.injEq] at h
    subst h
    refine ⟨s.takeWhile (fun c => c != '\n'), ?_, ?_⟩
    · intro c hc
      have hpc := List.mem_takeWhile_imp hc
      simpa using hpc
    · conv_lhs => rw [← List.takeWhile_append_dropWhile (fun c => c != '\n') s]
      rw [hdw]
  · cases h

theorem greedyLinesB_irrel :
    ∀ n, ∀ (s : List Char) (m : Nat), s.length ≤ n → s.length ≤ m →
      greedyLinesB n s = greedyLinesB m s := by
  intro n
  induction n with
  | zero =>
      intro s m hn _
      have hs : s = [] := List.eq_nil_of_length_eq_zero (Nat.le_zero.1 hn)
      subst hs
      cases m with
      | zero => rfl
      | succ m => simp [greedyLinesB, consumeTail_nil]
  | succ n ih =>
      intro s m hn hm
      cases hct : consumeTail s with
      | none =>
          cases m with
          | zero =>
              have hs : s = [] := List.eq_nil_of_length_eq_zero (Nat.le_zero.1 hm)
              subst hs
              simp [greedyLinesB, consumeTail_nil]
          | succ m' => simp [greedyLinesB, hct]
      | some rest =>
          obtain ⟨w, -, rfl⟩ := consumeTail_some hct
          have hm1 : 0 < m := by
            have : 0 < (w ++ '\n' :: rest).length := by simp
            omega
          obtain ⟨m', rfl⟩ : ∃ m', m = m' + 1 :=
            ⟨m - 1, (Nat.succ_pred_eq_of_pos hm1).symm⟩
          have hrl : rest.length < (w ++ '\n' :: rest).length := by simp; omega
          simp only [greedyLinesB, hct]
          rw [ih rest m' (by omega) (by omega)]

theorem greedyLines_eq (s : List Char) :
    greedyLines s =
      match consumeTail s with
      | none => none
      | some rest =>
        match greedyLines rest with
        | some r => some r
        | none =>
            if pfx sp2Brace rest then some (rest.drop sp2Brace.length) else none := by
  cases hct : consumeTail s with
  | none =>
      unfold greedyLines
      cases hlen : s.length with
      | zero => rfl
      | succ n => simp [greedyLinesB, hct]
  | some rest =>
      obtain ⟨w, -, rfl⟩ := consumeTail_some hct
      unfold greedyLines
      have hlen : (w ++ '\n' :: rest).length = w.length + rest.length + 1 := by
        simp [List.length_append]
        omega
      rw [hlen]
      simp only [greedyLinesB, hct]
      rw [greedyLinesB_irrel (w.length + rest.length) rest rest.length
        (by omega) (le_refl _)]

theorem greedyLinesB_sound :
    ∀ n (s r : List Char), greedyLinesB n s = some r →
      ∃ u, s = u ++ '\n' :: sp2Brace ++ r := by
  intro n
  induction n with
  | zero => intro s r h; cases h
  | succ n ih =>
      intro s r h
      cases hct : consumeTail s with
      | none => simp [greedyLinesB, hct] at h
      | some rest =>
          simp only [greedyLinesB, hct] at h
          obtain ⟨w, -, rfl⟩ := consumeTail_some hct
          cases hrec : greedyLinesB n rest with
          | some r' =>
              simp only [hrec, Option.some.injEq] at h
              subst h
              obtain ⟨u', hu⟩ := ih rest r' hrec
              refine ⟨w ++ '\n' :: u', ?_⟩
              rw [hu]
              simp
          | none =>
              simp only [hrec] at h
              split at h
              · rename_i hpfx
                obtain ⟨t, rfl⟩ := (pfx_iff sp2Brace rest).1 hpfx
                rw [List.drop_left] at h
                simp only [Option.some.injEq] at h
                subst h
                exact ⟨w, by simp⟩
              · cases h

theorem greedyLines_sound {s r : List Char} (h : greedyLines s = some r) :
    ∃ u, s = u ++ '\n' :: sp2Brace ++ r :=
  greedyLinesB_sound s.length s r h

theorem greedyLines_none {s : List Char}
    (h : containsSub ('\n' :: sp2Brace) s = false) : greedyLines s = none := by
  by_contra hne
  obtain ⟨r, hr⟩ := Option.ne_none_iff_exists'.1 hne
  obtain ⟨u, hu⟩ := greedyLines_sound hr
  rw [containsSub_of_eq hu] at h
  cases h

theorem findF_some {content s r rest : List Char}
    (h : findF content s = some (r, rest)) :
    ∃ u, s = anchorStr ++ u ++ '\n' :: sp2Brace ++ rest ∧
      r = anchorStr ++ '\n' :: content ++ sp2Brace := by
  unfold findF at h
  split at h
  · rename_i hp
    split at h
    · rename_i rest' hg
      simp only [Option.some.injEq, Prod.mk.injEq] at h
      obtain ⟨hr, hrest⟩ := h
      obtain ⟨t, rfl⟩ := (pfx_iff anchorStr s).1 hp
      rw [List.drop_left] at hg
      subst hrest
      obtain ⟨u, hu⟩ := greedyLines_sound hg
      exact ⟨u, by rw [hu]; simp, hr.symm⟩
    · cases h
  · cases h

theorem consuming_findF (content : List Char) : Consuming (findF content) := by
  intro s r rest h
  obtain ⟨u, hs, -⟩ := findF_some h
  rw [hs]
  have : anchorStr.length = 24 := by decide
  simp [List.length_append, this]
  omega

theorem greedy_main :
    ∀ (ls : List (List Char)) (post : List Char),
      (∀ l ∈ ls, '\n' ∉ l) →
      containsSub ('\n' :: sp2Brace) (sp2Brace ++ post) = false →
      ls ≠ [] →
      greedyLines (linesText ls ++ sp2Brace ++ post) = some post := by
  intro ls
  induction ls with
  | nil => intro post _ _ hne; exact absurd rfl hne
  | cons l ls' ih =>
      intro post hls hpost _
      have hl : ∀ c ∈ l, c ≠ '\n' := by
        intro c hc hcn
        exact (hls l (List.mem_cons_self l ls')) (hcn ▸ hc)
      have hshape : linesText (l :: ls') ++ sp2Brace ++ post
          = l ++ '\n' :: (linesText ls' ++ sp2Brace ++ post) := by
        simp [linesText]
      rw [hshape, greedyLines_eq, consumeTail_line hl]
      cases ls' with
      | nil =>
          have hnone : greedyLines (linesText [] ++ sp2Brace ++ post) = none := by
            simpa [linesText] using greedyLines_none hpost
          simp only [linesText, List.nil_append] at hnone ⊢
          rw [hnone, if_pos (pfx_append sp2Brace post), List.drop_left]
      | cons l2 ls'' =>
          have hrec := ih post (fun x hx => hls x (List.mem_cons_of_mem l hx))
            hpost (by simp)
          simp only [hrec]

/-! ## Splitting at the first newline, and positions where no rule fires -/

theorem takeWhile_append_all {p : Char → Bool} :
    ∀ {w : List Char}, (∀ c ∈ w, p c = true) → ∀ z, (w ++ z).takeWhile p = w ++ z.takeWhile p := by
  intro w
  induction w with
  | nil => intro _ z; rfl
  | cons a w' ih =>
      intro h z
      rw [List.cons_append, List.takeWhile_cons, if_pos (h a (List.mem_cons_self a w'))]
      rw [ih (fun c hc => h c (List.mem_cons_of_mem a hc)) z]
      rfl

theorem dropWhile_append_all {p : Char → Bool} :
    ∀ {w : List Char}, (∀ c ∈ w, p c = true) → ∀ z, (w ++ z).dropWhile p = z.dropWhile p := by
  intro w
  induction w with
  | nil => intro _ z; rfl
  | cons a w' ih =>
      intro h z
      rw [List.cons_append, List.dropWhile_cons, if_pos (h a (List.mem_cons_self a w'))]
      exact ih (fun c hc => h c (List.mem_cons_of_mem a hc)) z

theorem split_first_nl :
    ∀ {u1 v1 u2 v2 : List Char}, '\n' ∉ u1 → '\n' ∉ u2 →
      u1 ++ '\n' :: v1 = u2 ++ '\n' :: v2 → u1 = u2 ∧ v1 = v2 := by
  intro u1
  induction u1 with
  | nil =>
      intro v1 u2 v2 _ h2 heq
      cases u2 with
      | nil => simpa using heq
      | cons c u2' =>
          simp only [List.nil_append, List.cons_append, List.cons.injEq] at heq
          exact absurd (heq.1 ▸ List.mem_cons_self c u2') h2
  | cons c u1' ih =>
      intro v1 u2 v2 h1 h2 heq
      cases u2 with
      | nil =>
          simp only [List.cons_append, List.nil_append, List.cons.injEq] at heq
          exact absurd (heq.1 ▸ List.mem_cons_self c u1') h1
      | cons d u2' =>
          simp only [List.cons_append, List.cons.injEq] at heq
          obtain ⟨rfl, heq'⟩ := heq
          have hrec := ih (fun hm => h1 (List.mem_cons_of_mem _ hm))
            (fun hm => h2 (List.mem_cons_of_mem _ hm)) heq'
          exact ⟨by rw [hrec.1], hrec.2⟩

theorem inAZaz_ne_nl {c : Char} (h : inAZaz c = true) : c ≠ '\n' := by
  intro hc
  subst hc
  simp [inAZaz] at h

theorem isDigit_ne_nl {c : Char} (h : c.isDigit = true) : c ≠ '\n' := by
  intro hc
  subst hc
  simp [Char.isDigit] at h

theorem findWait_none_of_no_star {s : List Char} (h : '*' ∉ s) (k : Nat) :
    findWait (s.drop k) = none := by
  have hp : pfx waitPat (s.drop k) = false := by
    by_contra hb
    have hb' : pfx waitPat (s.drop k) = true := Bool.of_not_eq_false hb
    exact h (List.mem_of_mem_drop (pfx_mem hb' (by decide)))
  simp [findWait, hp]

theorem findA_none_core {w z : List Char} (hw : '\n' ∉ w)
    (hc : ':' ∉ w ∨ '(' ∉ w) : findA (w ++ '\n' :: z) = none := by
  by_contra hne
  obtain ⟨pr, hpr⟩ := Option.ne_none_iff_exists'.1 hne
  obtain ⟨r, rest⟩ := pr
  obtain ⟨run, a, b, -, hrun, ha, hb, hpb, hs, -⟩ := findA_some hpr
  have hu2 : '\n' ∉ run ++ '(' :: a ++ ')' :: b := by
    intro hm
    rcases List.mem_append.1 hm with hm | hm
    · rcases List.mem_append.1 hm with hm | hm
      · exact inAZaz_ne_nl (hrun _ hm) rfl
      · rcases List.mem_cons.1 hm with heq | hm
        · exact absurd heq (by decide)
        · exact ha _ hm rfl
    · rcases List.mem_cons.1 hm with heq | hm
      · exact absurd heq (by decide)
      · exact hb _ hm rfl
  obtain ⟨hweq, -⟩ := split_first_nl hw hu2 hs
  have hcb : ':' ∈ b := pfx_mem hpb colon_mem_spTD
  rcases hc with hcol | hpar
  · refine hcol ?_
    rw [hweq]
    exact List.mem_append_right _ (List.mem_cons_of_mem _ hcb)
  · refine hpar ?_
    rw [hweq]
    exact List.mem_append_left _ (List.mem_append_right _ (List.mem_cons_self _ _))

theorem tdColon_no_nl : '\n' ∉ tdColon := by decide

theorem findR3_none_no_colon {w z : List Char} (hw : '\n' ∉ w) (hc : ':' ∉ w) :
    findR3 (w ++ '\n' :: z) = none := by
  by_contra hne
  obtain ⟨pr, hpr⟩ := Option.ne_none_iff_exists'.1 hne
  obtain ⟨r, rest⟩ := pr
  obtain ⟨ds, mid, -, hds, hmid, hs, -⟩ := findR3_some hpr
  have hu2 : '\n' ∉ tdColon ++ ds ++ ' ' :: mid := by
    intro hm
    rcases List.mem_append.1 hm with hm | hm
    · rcases List.mem_append.1 hm with hm | hm
      · exact tdColon_no_nl hm
      · exact isDigit_ne_nl (hds _ hm) rfl
    · rcases List.mem_cons.1 hm with heq | hm
      · exact absurd heq (by decide)
      · exact hmid _ hm rfl
  obtain ⟨hweq, -⟩ := split_first_nl hw hu2 hs
  refine hc ?_
  rw [hweq]
  exact List.mem_append_left _ (List.mem_append_left _ (by decide))

theorem findR5_none_of_no_x {s : List Char} (h : 'x' ∉ s) (k : Nat) :
    findR5 (s.drop k) = none := by
  by_contra hne
  obtain ⟨pr, hpr⟩ := Option.ne_none_iff_exists'.1 hne
  obtain ⟨r, rest⟩ := pr
  obtain ⟨hx, -, -, hs, -⟩ := findR5_some hpr
  have : 'x' ∈ s.drop k := by
    rw [hs]
    exact List.mem_append_left _ (List.mem_cons_of_mem _ (List.mem_cons_self _ _))
  exact h (List.mem_of_mem_drop this)

theorem drop_line_append {u z : List Char} {k : Nat} (hk : k ≤ u.length) :
    (u ++ '\n' :: z).drop k = u.drop k ++ '\n' :: z := by
  rw [List.drop_append_eq_append_drop]
  have h0 : k - u.length = 0 := by omega
  rw [h0, List.drop_zero]

/-! ## Line-level behaviour of the rules -/

theorem stripWait_id_of_no_star {s : List Char} (h : '*' ∉ s) : stripWait s = s :=
  applyRW_id findWait s (findWait_none_of_no_star h)

theorem rewriteAddress_id_of_no_x {s : List Char} (h : 'x' ∉ s) :
    rewriteAddress s = s :=
  applyRW_id findR5 s (findR5_none_of_no_x h)

theorem reflow_skip_line {body rest : List Char} (hb : '\n' ∉ body)
    (hc : ':' ∉ body ∨ '(' ∉ body) :
    reflowDelay (body ++ '\n' :: rest) = body ++ '\n' :: reflowDelay rest := by
  have hx : body ++ '\n' :: rest = (body ++ ['\n']) ++ rest := by simp
  have hnone : ∀ k, k < (body ++ ['\n']).length →
      findA (((body ++ ['\n']) ++ rest).drop k) = none := by
    intro k hk
    have hk' : k ≤ body.length := by
      simp only [List.length_append, List.length_cons, List.length_nil] at hk
      omega
    have hd : ((body ++ ['\n']) ++ rest).drop k = body.drop k ++ '\n' :: rest := by
      rw [← hx]
      exact drop_line_append hk'
    rw [hd]
    refine findA_none_core (fun hm => hb (List.mem_of_mem_drop hm)) ?_
    rcases hc with h | h
    · exact Or.inl (fun hm => h (List.mem_of_mem_drop hm))
    · exact Or.inr (fun hm => h (List.mem_of_mem_drop hm))
  show applyRW findA (body ++ '\n' :: rest) = body ++ '\n' :: applyRW findA rest
  rw [hx, applyRW_skip findA (body ++ ['\n']) rest hnone]
  simp

theorem warp_skip_line {body rest : List Char} (hb : '\n' ∉ body)
    (hc : ':' ∉ body) :
    delayToWarp (body ++ '\n' :: rest) = body ++ '\n' :: delayToWarp rest := by
  have hx : body ++ '\n' :: rest = (body ++ ['\n']) ++ rest := by simp
  have hnone : ∀ k, k < (body ++ ['\n']).length →
      findR3 (((body ++ ['\n']) ++ rest).drop k) = none := by
    intro k hk
    have hk' : k ≤ body.length := by
      simp only [List.length_append, List.length_cons, List.length_nil] at hk
      omega
    have hd : ((body ++ ['\n']) ++ rest).drop k = body.drop k ++ '\n' :: rest := by
      rw [← hx]
      exact drop_line_append hk'
    rw [hd]
    exact findR3_none_no_colon (fun hm => hb (List.mem_of_mem_drop hm))
      (fun hm => hc (List.mem_of_mem_drop hm))
  show applyRW findR3 (body ++ '\n' :: rest) = body ++ '\n' :: applyRW findR3 rest
  rw [hx, applyRW_skip findR3 (body ++ ['\n']) rest hnone]
  simp

theorem warp_fire {d t rest : List Char} (hd : d ≠ [])
    (hdig : ∀ c ∈ d, c.isDigit = true) (ht : ∀ c ∈ t, c ≠ '\n') :
    delayToWarp (tdColon ++ (d ++ ' ' :: (t ++ '\n' :: rest)))
      = warpPre ++ d ++ ')' :: '\n' :: delayToWarp rest := by
  have hTW : (d ++ ' ' :: (t ++ '\n' :: rest)).takeWhile Char.isDigit = d := by
    rw [takeWhile_append_all hdig, List.takeWhile_cons, if_neg (by decide)]
    simp
  have hDW : (d ++ ' ' :: (t ++ '\n' :: rest)).dropWhile Char.isDigit
      = ' ' :: (t ++ '\n' :: rest) := by
    rw [dropWhile_append_all hdig, List.dropWhile_cons, if_neg (by decide)]
  have hDW2 : (t ++ '\n' :: rest).dropWhile (fun c => c != '\n') = '\n' :: rest := by
    rw [dropWhile_append_neg (by simp) t rest,
      dropWhile_eq_nil_of_all (fun c hc => by simpa using ht c hc)]
    rfl
  have hempty : d.isEmpty = false := by
    simp [List.isEmpty_iff, hd]
  have hfind : findR3 (tdColon ++ (d ++ ' ' :: (t ++ '\n' :: rest)))
      = some (warpPre ++ d ++ [')', '\n'], rest) := by
    simp only [findR3, pfx_append, List.drop_left, hTW, hDW, hDW2, hempty,
      if_true, Bool.false_eq_true, if_false]
  have hfire := applyRW_fire findR3 consuming_findR3 hfind
  show applyRW findR3 _ = _
  rw [hfire]
  simp
  rfl

theorem terminateParens_eq_expandText : ∀ s, terminateParens s = expandText s := by
  intro s
  induction s with
  | nil => rfl
  | cons c cs ih =>
      by_cases hc : c = ')'
      · subst hc
        have hfind : findR4 (')' :: cs) = some ([')', ';'], cs) := by simp [findR4]
        have h2 : terminateParens (')' :: cs) = [')', ';'] ++ terminateParens cs :=
          applyRW_fire findR4 consuming_findR4 hfind
        rw [h2, ih]
        simp [expandText, expandParen]
      · have hfind : findR4 (c :: cs) = none := by simp [findR4, hc]
        have h2 : terminateParens (c :: cs) = c :: terminateParens cs :=
          applyRW_cons_none findR4 hfind
        rw [h2, ih]
        simp [expandText, expandParen, hc]

theorem expandText_append : ∀ u v : List Char,
    expandText (u ++ v) = expandText u ++ expandText v := by
  intro u v
  induction u with
  | nil => rfl
  | cons c u' ih => simp [expandText, ih]

theorem expandText_no_paren : ∀ {u : List Char}, ')' ∉ u → expandText u = u := by
  intro u
  induction u with
  | nil => intro _; rfl
  | cons c u' ih =>
      intro h
      have hc : c ≠ ')' := fun hcc => h (hcc ▸ List.mem_cons_self c u')
      simp [expandText, expandParen, hc, ih (fun hm => h (List.mem_cons_of_mem c hm))]

theorem countNL_applyRW (f : List Char → Option (List Char × List Char))
    (hf : Consuming f)
    (hcnt : ∀ s r rest, f s = some (r, rest) →
      countNL r + countNL rest = countNL s) :
    ∀ s, countNL (applyRW f s) = countNL s := by
  suffices h : ∀ n (s : List Char), s.length ≤ n →
      countNL (applyRW f s) = countNL s by
    intro s
    exact h s.length s (le_refl _)
  intro n
  induction n with
  | zero =>
      intro s hs
      have : s = [] := List.eq_nil_of_length_eq_zero (Nat.le_zero.1 hs)
      subst this
      rfl
  | succ n ih =>
      intro s hs
      cases s with
      | nil => rfl
      | cons c cs =>
          cases hfind : f (c :: cs) with
          | none =>
              rw [applyRW_cons_none f hfind]
              have hrec := ih cs (by simpa using hs)
              simp only [countNL] at hrec ⊢
              rw [List.count_cons, List.count_cons, hrec]
          | some pr =>
              obtain ⟨r, rest⟩ := pr
              have hlt : rest.length < (c :: cs).length := hf _ _ _ hfind
              rw [applyRW_fire f hf hfind]
              have hrec := ih rest (by simp at hs hlt; omega)
              have hcc := hcnt _ _ _ hfind
              simp only [countNL] at hrec hcc ⊢
              rw [List.count_append, hrec]
              omega

/-! ## Helper facts for the claims -/

theorem intercalate_singleton (sep x : List Char) :
    List.intercalate sep [x] = x := by
  simp [List.intercalate]

theorem intercalate_cons2 (sep x y : List Char) (t : List (List Char)) :
    List.intercalate sep (x :: y :: t) = x ++ sep ++ List.intercalate sep (y :: t) := by
  simp [List.intercalate, List.intersperse]

/-! ## Claims -/

/-- C1: the one-line trace `*wait* transfer(0x1234abcd,100) Time delay: 3600
seconds` normalizes to exactly two lines: the call statement
`transfer(address(0x1234abcd),100);` and, on the next line, four spaces of
indentation followed by the clock-advance statement carrying 3600
(`vm.warp(3600)`) with the rule-4 statement terminator appended to it. -/
theorem c1_end_to_end :
    outputToSol (("*wait* transfer(0x1234abcd,100) Time delay: 3600 seconds\n").toList)
      = ("transfer(address(0x1234abcd),100);\n").toList
        ++ indent4 ++ ("vm.warp(3600)").toList ++ (";\n").toList := by decide

/-- C4 counterexample: the claim says a line not ending in `)` is not
modified by the statement-termination rule, but the rule rewrites the line
`f(a) b` (which does not end in a closing parenthesis) because it replaces
every `)` in the text. -/
theorem c4_counterexample :
    terminateParens (("f(a) b\n").toList) ≠ ("f(a) b\n").toList := by decide

/-- C4 amended: the statement-termination rule appends `;` immediately after
every closing parenthesis wherever it occurs — not only at line ends — and
changes nothing else; consequently a line ending in `)` does end in `);`
afterwards, but a `)` in the middle of a line is terminated too, and a line
with several `)` receives several terminators. -/
theorem c4_amended (s : List Char) : terminateParens s = expandText s :=
  terminateParens_eq_expandText s

/-- C5 counterexample: noise stripping is not idempotent.  On
`*wai*wait* t* ` one pass removes the inner marker and the remaining
fragments join into a fresh `*wait* `, which a second pass removes. -/
theorem c5_counterexample :
    stripWait (stripWait (("*wai*wait* t* ").toList))
      ≠ stripWait (("*wai*wait* t* ").toList) := by decide

/-- C5 amended: noise stripping is idempotent on every input whose single
pass leaves no occurrence of the marker; in general the removal can join
surrounding fragments into a new marker, so a second pass can differ. -/
theorem c5_amended (s : List Char)
    (h : containsSub waitPat (stripWait s) = false) :
    stripWait (stripWait s) = stripWait s := by
  apply applyRW_id
  intro k
  have hp := pfx_drop_of_not_containsSub h k
  simp [findWait, hp]

/-- Witness for the amended C5 at a concrete input. -/
theorem c5_witness :
    containsSub waitPat (stripWait (("abc *wait* def\n").toList)) = false
    ∧ stripWait (stripWait (("abc *wait* def\n").toList))
        = stripWait (("abc *wait* def\n").toList) :=
  ⟨by decide, c5_amended (("abc *wait* def\n").toList) (by decide)⟩

/-- C9: when the anchor signature does not occur anywhere in the template
text, `fillFile` rewrites nothing: the text written back is byte-identical to
the text read. -/
theorem c9_anchor_absent (content data : List Char)
    (h : containsSub anchorStr data = false) :
    fillFile content data = data := by
  apply applyRW_id
  intro k
  have hp := pfx_drop_of_not_containsSub h k
  simp [findF, hp]

/-- Witness for C9 at a concrete template without the anchor. -/
theorem c9_witness :
    containsSub anchorStr (("contract X \x7b\n  \x7d\n").toList) = false
    ∧ fillFile (("  a();\n").toList) (("contract X \x7b\n  \x7d\n").toList)
        = ("contract X \x7b\n  \x7d\n").toList :=
  ⟨by decide, c9_anchor_absent (("  a();\n").toList) _ (by decide)⟩

/-- C10: the printed linker string carries exactly one `--libraries ` flag
immediately before each library, in list order — it is the space-separated
concatenation of `--libraries <lib>` blocks — and degenerates to the bare
flag `--libraries ` for an empty list. -/
theorem c10_libraries (libraries : List (List Char)) :
    cli_option libraries =
      if libraries = [] then ("--libraries ").toList
      else List.intercalate [' ']
        (libraries.map (fun l => ("--libraries ").toList ++ l)) := by
  cases libraries with
  | nil => simp [cli_option, List.intercalate]
  | cons x t =>
      rw [if_neg (by simp)]
      induction t generalizing x with
      | nil => simp [cli_option, intercalate_singleton]
      | cons y t' ih =>
          have hih := ih y
          rw [List.map_cons, List.map_cons, intercalate_cons2, ← List.map_cons,
            ← hih]
          have hsep : (" --libraries ").toList
              = ' ' :: ("--libraries ").toList := by decide
          simp only [cli_option, intercalate_cons2, hsep]
          simp

/-- C7: the address rule rewrites a token `0x<hex-digits>,` — deterministically,
wrapping exactly the captured digit run with its case and order untouched and
keeping the comma — and never rewrites a hex literal that is not immediately
followed by a comma (second conjunct: a trailing `0x<hex-digits>` token is
left alone). -/
theorem c7_address_rewrite (ds post : List Char) (h1 : ds ≠ [])
    (h2 : ∀ c ∈ ds, isHexC c = true) :
    rewriteAddress ('0' :: 'x' :: (ds ++ ',' :: post))
        = addrPre ++ ds ++ ')' :: ',' :: rewriteAddress post
    ∧ rewriteAddress ('0' :: 'x' :: ds) = '0' :: 'x' :: ds := by
  have hempty : ds.isEmpty = false := by simp [List.isEmpty_iff, h1]
  constructor
  · have hTW : (ds ++ ',' :: post).takeWhile isHexC = ds := by
      rw [takeWhile_append_all h2, List.takeWhile_cons, if_neg (by decide)]
      simp
    have hDW : (ds ++ ',' :: post).dropWhile isHexC = ',' :: post := by
      rw [dropWhile_append_all h2, List.dropWhile_cons, if_neg (by decide)]
    have hfind : findR5 ('0' :: 'x' :: (ds ++ ',' :: post))
        = some (addrPre ++ ds ++ [')', ','], post) := by
      simp only [findR5, hTW, hDW, hempty, Bool.false_eq_true, if_false]
    have hfire := applyRW_fire findR5 consuming_findR5 hfind
    show applyRW findR5 _ = _
    rw [hfire]
    simp
    rfl
  · apply applyRW_id
    intro k
    by_contra hne
    obtain ⟨pr, hpr⟩ := Option.ne_none_iff_exists'.1 hne
    obtain ⟨r, rest⟩ := pr
    obtain ⟨hx, -, -, hseq, -⟩ := findR5_some hpr
    match k, hseq with
    | 0, hseq =>
        rw [List.drop_zero] at hseq
        have h2' : ('0' :: 'x' :: ds).dropWhile isHexC = [] ∨
            ∃ c cs, ('0' :: 'x' :: ds).dropWhile isHexC = c :: cs := by
          cases ('0' :: 'x' :: ds).dropWhile isHexC with
          | nil => exact Or.inl rfl
          | cons c cs => exact Or.inr ⟨c, cs, rfl⟩
        have hxmem : 'x' ∈ '0' :: 'x' :: ds := by simp
        have : 'x' ∈ '0' :: 'x' :: hx ++ ',' :: rest := hseq ▸ hxmem
        rcases List.mem_append.1 this with hm | hm
        · rcases List.mem_cons.1 hm with heq | hm
          · exact absurd heq (by decide)
          rcases List.mem_cons.1 hm with heq | hm
          · -- the second position is 'x' again: fine, but then ',' must occur in ds
            have hcm : ',' ∈ '0' :: 'x' :: ds := by
              rw [hseq]
              exact List.mem_append_right _ (List.mem_cons_self _ _)
            rcases List.mem_cons.1 hcm with hq | hq
            · exact absurd hq (by decide)
            rcases List.mem_cons.1 hq with hq | hq
            · exact absurd hq (by decide)
            · exact absurd (h2 _ hq) (by decide)
          · have hcm : ',' ∈ '0' :: 'x' :: ds := by
              rw [hseq]
              exact List.mem_append_right _ (List.mem_cons_self _ _)
            rcases List.mem_cons.1 hcm with hq | hq
            · exact absurd hq (by decide)
            rcases List.mem_cons.1 hq with hq | hq
            · exact absurd hq (by decide)
            · exact absurd (h2 _ hq) (by decide)
        · have hcm : ',' ∈ '0' :: 'x' :: ds := by
            rw [hseq]
            exact List.mem_append_right _ (List.mem_cons_self _ _)
          rcases List.mem_cons.1 hcm with hq | hq
          · exact absurd hq (by decide)
          rcases List.mem_cons.1 hq with hq | hq
          · exact absurd hq (by decide)
          · exact absurd (h2 _ hq) (by decide)
    | 1, hseq =>
        have hd : ('0' :: 'x' :: ds).drop 1 = 'x' :: ds := rfl
        rw [hd] at hseq
        have : ('x' : Char) = '0' := by
          have := congrArg (fun l => l.head?) hseq
          simpa using this
        exact absurd this (by decide)
    | (k' + 2), hseq =>
        have hd : ('0' :: 'x' :: ds).drop (k' + 2) = ds.drop k' := rfl
        rw [hd] at hseq
        have hxm : 'x' ∈ ds.drop k' := by
          rw [hseq]
          exact List.mem_append_left _ (List.mem_cons_of_mem _ (List.mem_cons_self _ _))
        exact absurd (h2 _ (List.mem_of_mem_drop hxm)) (by decide)

/-- Witness for C7: the mixed-case token `0xa1B,` is rewritten in place with
its digits untouched, and the comma-less `0xa1B` is not. -/
theorem c7_witness :
    (['a', '1', 'B'] : List Char) ≠ []
    ∧ (∀ c ∈ (['a', '1', 'B'] : List Char), isHexC c = true)
    ∧ rewriteAddress ('0' :: 'x' :: (['a', '1', 'B'] ++ ',' :: ("5)\n").toList))
        = addrPre ++ ['a', '1', 'B'] ++ ')' :: ',' :: rewriteAddress (("5)\n").toList)
    ∧ rewriteAddress ('0' :: 'x' :: ['a', '1', 'B']) = '0' :: 'x' :: ['a', '1', 'B'] :=
  ⟨by decide, by decide,
    (c7_address_rewrite ['a', '1', 'B'] (("5)\n").toList) (by decide) (by decide)).1,
    (c7_address_rewrite ['a', '1', 'B'] (("5)\n").toList) (by decide) (by decide)).2⟩

theorem splitLastDelay_append (a b : List Char) (hb : pfx spTD b = true)
    (hlast : ∀ u v, b = u ++ ')' :: v → pfx spTD v = false) :
    splitLastDelay (a ++ ')' :: b) = some (a, b) := by
  induction a with
  | nil =>
      have hnone : splitLastDelay b = none := by
        refine splitLastDelay_none (fun u v hl => hlast u v hl)
      rw [List.nil_append]
      unfold splitLastDelay
      rw [hnone]
      simp [hb]
  | cons c a' ih =>
      rw [List.cons_append]
      unfold splitLastDelay
      rw [ih]

theorem no_candidate_spTD_tail {tail : List Char}
    (h6 : containsSub (')' :: spTD) tail = false) :
    ∀ u v, spTD ++ tail = u ++ ')' :: v → pfx spTD v = false := by
  intro u v heq
  by_contra hbb
  have hb' : pfx spTD v = true := Bool.of_not_eq_false hbb
  obtain ⟨v', rfl⟩ := (pfx_iff spTD v).1 hb'
  rcases List.append_eq_append_iff.1 heq with ⟨w, hw1, hw2⟩ | ⟨w, hw1, hw2⟩
  · have htail : tail = w ++ (')' :: spTD) ++ v' := by
      rw [hw2]
      simp
    rw [containsSub_of_eq htail] at h6
    cases h6
  · cases w with
    | nil =>
        rw [List.nil_append] at hw2
        have htail : tail = [] ++ (')' :: spTD) ++ v' := by
          rw [← hw2]
          simp
        rw [containsSub_of_eq htail] at h6
        cases h6
    | cons d w' =>
        have hd : d = ')' := by
          have := congrArg (fun l => l.head?) hw2
          simpa using this.symm
        have : (')' : Char) ∈ spTD := by
          rw [hw1, ← hd]
          exact List.mem_append_right u (List.mem_cons_self d w')
        exact absurd this (by decide)

/-- C8: the reflow rule splits a call line that carries a trailing
`Time delay:` annotation — the call keeps its own line and the annotation
moves to the next line behind the four-space indentation — and leaves a call
line with no trailing annotation untouched (second conjunct). -/
theorem c8_reflow (name args tail rest rest2 : List Char)
    (h1 : name ≠ []) (h2 : ∀ c ∈ name, inAZaz c = true)
    (h3 : '\n' ∉ args) (h4 : ':' ∉ args)
    (h5 : '\n' ∉ tail) (h6 : containsSub (')' :: spTD) tail = false) :
    reflowDelay (name ++ '(' :: args ++ ')' :: spTD ++ tail ++ '\n' :: rest)
        = name ++ '(' :: args ++ ')' :: '\n' :: indent4 ++ tdColon ++ tail
            ++ '\n' :: reflowDelay rest
    ∧ reflowDelay (name ++ '(' :: args ++ ')' :: '\n' :: rest2)
        = name ++ '(' :: args ++ ')' :: '\n' :: reflowDelay rest2 := by
  have hname : name.isEmpty = false := by simp [List.isEmpty_iff, h1]
  have hargsne : ∀ c ∈ args, (c != '\n') = true :=
    fun c hc => bne_iff_ne.2 (fun heq => h3 (heq ▸ hc))
  have htailne : ∀ c ∈ tail, (c != '\n') = true :=
    fun c hc => bne_iff_ne.2 (fun heq => h5 (heq ▸ hc))
  constructor
  · have hshape : name ++ '(' :: args ++ ')' :: spTD ++ tail ++ '\n' :: rest
        = name ++ ('(' :: (args ++ ')' :: (spTD ++ (tail ++ '\n' :: rest)))) := by
      simp
    set X := args ++ ')' :: (spTD ++ (tail ++ '\n' :: rest)) with hX
    have hTWn : (name ++ ('(' :: X)).takeWhile inAZaz = name := by
      rw [takeWhile_append_all h2, List.takeWhile_cons, if_neg (by decide)]
      simp
    have hDWn : (name ++ ('(' :: X)).dropWhile inAZaz = '(' :: X := by
      rw [dropWhile_append_all h2, List.dropWhile_cons, if_neg (by decide)]
    have hTWX : X.takeWhile (fun c => c != '\n') = args ++ ')' :: (spTD ++ tail) := by
      rw [hX, takeWhile_append_all hargsne, List.takeWhile_cons, if_pos (by decide),
        takeWhile_append_all (by decide), takeWhile_append_all htailne,
        List.takeWhile_cons, if_neg (by decide)]
      simp
    have hDWX : X.dropWhile (fun c => c != '\n') = '\n' :: rest := by
      rw [hX, dropWhile_append_all hargsne, List.dropWhile_cons, if_pos (by decide),
        dropWhile_append_all (by decide), dropWhile_append_all htailne,
        List.dropWhile_cons, if_neg (by decide)]
    have hsplit : splitLastDelay (args ++ ')' :: (spTD ++ tail))
        = some (args, spTD ++ tail) :=
      splitLastDelay_append args (spTD ++ tail) (pfx_append spTD tail)
        (no_candidate_spTD_tail h6)
    have hdrop1 : (spTD ++ tail).drop 1 = tdColon ++ tail := by
      simp [spTD]
    have hfind : findA (name ++ ('(' :: X))
        = some (name ++ '(' :: args ++ ')' :: '\n' :: indent4
            ++ (tdColon ++ tail) ++ ['\n'], rest) := by
      simp only [findA, hTWn, hDWn, hname, Bool.false_eq_true, if_false, hTWX,
        hDWX, hsplit, hdrop1]
    have hfire := applyRW_fire findA consuming_findA hfind
    rw [hshape]
    show applyRW findA _ = _
    rw [hfire]
    simp
    rfl
  · have hshape2 : name ++ '(' :: args ++ ')' :: '\n' :: rest2
        = (name ++ '(' :: args ++ [')']) ++ '\n' :: rest2 := by
      simp
    have hbody1 : '\n' ∉ name ++ '(' :: args ++ [')'] := by
      intro hm
      rcases List.mem_append.1 hm with hm | hm
      · rcases List.mem_append.1 hm with hm | hm
        · exact inAZaz_ne_nl (h2 _ hm) rfl
        · rcases List.mem_cons.1 hm with heq | hm
          · exact absurd heq (by decide)
          · exact h3 hm
      · exact absurd hm (by decide)
    have hbody2 : ':' ∉ name ++ '(' :: args ++ [')'] := by
      intro hm
      rcases List.mem_append.1 hm with hm | hm
      · rcases List.mem_append.1 hm with hm | hm
        · exact absurd (h2 _ hm) (by decide)
        · rcases List.mem_cons.1 hm with heq | hm
          · exact absurd heq (by decide)
          · exact h4 hm
      · exact absurd hm (by decide)
    rw [hshape2, reflow_skip_line hbody1 (Or.inl hbody2)]
    simp

/-- Witness for C8 on a concrete call line with and without a delay suffix. -/
theorem c8_witness :
    reflowDelay (("fn").toList ++ '(' :: ("1,2").toList ++ ')' :: spTD
          ++ ("60 secs").toList ++ '\n' :: [])
        = ("fn").toList ++ '(' :: ("1,2").toList ++ ')' :: '\n' :: indent4
          ++ tdColon ++ ("60 secs").toList ++ '\n' :: reflowDelay []
    ∧ reflowDelay (("fn").toList ++ '(' :: ("1,2").toList ++ ')' :: '\n' :: ("g();\n").toList)
        = ("fn").toList ++ '(' :: ("1,2").toList ++ ')' :: '\n'
          :: reflowDelay (("g();\n").toList) :=
  c8_reflow (("fn").toList) (("1,2").toList) (("60 secs").toList) [] (("g();\n").toList)
    (by decide) (by decide) (by decide) (by decide) (by decide) (by decide)

/-! ## Trace-level behaviour for the order-preservation claim -/

theorem renderItem_no_star {it : TraceItem} (h : WFItem it) :
    '*' ∉ renderItem it := by
  cases it with
  | call n a =>
      obtain ⟨-, hn, ha⟩ := h
      intro hm
      simp only [renderItem] at hm
      rcases List.mem_append.1 hm with hm | hm
      · rcases List.mem_append.1 hm with hm | hm
        · exact absurd (hn _ hm).1 (by decide)
        · rcases List.mem_cons.1 hm with heq | hm
          · exact absurd heq (by decide)
          · exact (ha _ hm).2.2.2.1 rfl
      · exact absurd hm (by decide)
  | delay d t =>
      obtain ⟨-, hd, ht⟩ := h
      intro hm
      simp only [renderItem] at hm
      rcases List.mem_append.1 hm with hm | hm
      · rcases List.mem_append.1 hm with hm | hm
        · rcases List.mem_append.1 hm with hm | hm
          · exact absurd hm (by decide)
          · exact absurd (hd _ hm) (by decide)
        · rcases List.mem_cons.1 hm with heq | hm
          · exact absurd heq (by decide)
          · rcases ht _ hm with h1 | h1
            · exact absurd h1 (by decide)
            · exact absurd h1 (by decide)
      · exact absurd hm (by decide)

theorem renderTrace_no_star :
    ∀ {tr : List TraceItem}, (∀ it ∈ tr, WFItem it) → '*' ∉ renderTrace tr := by
  intro tr
  induction tr with
  | nil => intro _ hm; simpa [renderTrace] using hm
  | cons it tr' ih =>
      intro h hm
      rcases List.mem_append.1 hm with hm | hm
      · exact renderItem_no_star (h it (List.mem_cons_self it tr')) hm
      · exact ih (fun x hx => h x (List.mem_cons_of_mem it hx)) hm

theorem callBody_no_nl {n a : List Char} (h : WFItem (.call n a)) :
    '\n' ∉ n ++ '(' :: a ++ [')'] := by
  obtain ⟨-, hn, ha⟩ := h
  intro hm
  rcases List.mem_append.1 hm with hm | hm
  · rcases List.mem_append.1 hm with hm | hm
    · exact inAZaz_ne_nl (hn _ hm).1 rfl
    · rcases List.mem_cons.1 hm with heq | hm
      · exact absurd heq (by decide)
      · exact (ha _ hm).1 rfl
  · exact absurd hm (by decide)

theorem callBody_no_colon {n a : List Char} (h : WFItem (.call n a)) :
    ':' ∉ n ++ '(' :: a ++ [')'] := by
  obtain ⟨-, hn, ha⟩ := h
  intro hm
  rcases List.mem_append.1 hm with hm | hm
  · rcases List.mem_append.1 hm with hm | hm
    · exact absurd (hn _ hm).1 (by decide)
    · rcases List.mem_cons.1 hm with heq | hm
      · exact absurd heq (by decide)
      · exact (ha _ hm).2.2.1 rfl
  · exact absurd hm (by decide)

theorem delayBody_no_nl {d t : List Char} (h : WFItem (.delay d t)) :
    '\n' ∉ tdColon ++ d ++ ' ' :: t := by
  obtain ⟨-, hd, ht⟩ := h
  intro hm
  rcases List.mem_append.1 hm with hm | hm
  · rcases List.mem_append.1 hm with hm | hm
    · exact absurd hm (by decide)
    · exact absurd (hd _ hm) (by decide)
  · rcases List.mem_cons.1 hm with heq | hm
    · exact absurd heq (by decide)
    · rcases ht _ hm with h1 | h1
      · exact absurd h1 (by decide)
      · exact absurd h1 (by decide)

theorem delayBody_no_paren {d t : List Char} (h : WFItem (.delay d t)) :
    '(' ∉ tdColon ++ d ++ ' ' :: t := by
  obtain ⟨-, hd, ht⟩ := h
  intro hm
  rcases List.mem_append.1 hm with hm | hm
  · rcases List.mem_append.1 hm with hm | hm
    · exact absurd hm (by decide)
    · exact absurd (hd _ hm) (by decide)
  · rcases List.mem_cons.1 hm with heq | hm
    · exact absurd heq (by decide)
    · rcases ht _ hm with h1 | h1
      · exact absurd h1 (by decide)
      · exact absurd h1 (by decide)

theorem reflow_renderTrace :
    ∀ {tr : List TraceItem}, (∀ it ∈ tr, WFItem it) →
      reflowDelay (renderTrace tr) = renderTrace tr := by
  intro tr
  induction tr with
  | nil => intro _; rfl
  | cons it tr' ih =>
      intro h
      have hit := h it (List.mem_cons_self it tr')
      have hrec := ih (fun x hx => h x (List.mem_cons_of_mem it hx))
      cases it with
      | call n a =>
          have hsh : renderTrace (TraceItem.call n a :: tr')
              = (n ++ '(' :: a ++ [')']) ++ '\n' :: renderTrace tr' := by
            simp [renderTrace, renderItem]
          rw [hsh, reflow_skip_line (callBody_no_nl hit)
            (Or.inl (callBody_no_colon hit)), hrec]
      | delay d t =>
          have hsh : renderTrace (TraceItem.delay d t :: tr')
              = (tdColon ++ d ++ ' ' :: t) ++ '\n' :: renderTrace tr' := by
            simp [renderTrace, renderItem]
          rw [hsh, reflow_skip_line (delayBody_no_nl hit)
            (Or.inr (delayBody_no_paren hit)), hrec]

theorem warp_renderTrace :
    ∀ {tr : List TraceItem}, (∀ it ∈ tr, WFItem it) →
      delayToWarp (renderTrace tr) = midTrace tr := by
  intro tr
  induction tr with
  | nil => intro _; rfl
  | cons it tr' ih =>
      intro h
      have hit := h it (List.mem_cons_self it tr')
      have hrec := ih (fun x hx => h x (List.mem_cons_of_mem it hx))
      cases it with
      | call n a =>
          have hsh : renderTrace (TraceItem.call n a :: tr')
              = (n ++ '(' :: a ++ [')']) ++ '\n' :: renderTrace tr' := by
            simp [renderTrace, renderItem]
          rw [hsh, warp_skip_line (callBody_no_nl hit) (callBody_no_colon hit),
            hrec]
          simp [midTrace, midItem]
      | delay d t =>
          obtain ⟨hd, hdig, ht⟩ := hit
          have hsh : renderTrace (TraceItem.delay d t :: tr')
              = tdColon ++ (d ++ ' ' :: (t ++ '\n' :: renderTrace tr')) := by
            simp [renderTrace, renderItem]
          have htn : ∀ c ∈ t, c ≠ '\n' := by
            intro c hc heq
            rcases ht c hc with h1 | h1
            · rw [heq] at h1; exact absurd h1 (by decide)
            · rw [heq] at h1; exact absurd h1 (by decide)
          rw [hsh, warp_fire hd hdig htn, hrec]
          simp [midTrace, midItem]

theorem expand_midItem {it : TraceItem} (h : WFItem it) :
    expandText (midItem it) = finalItem it := by
  cases it with
  | call n a =>
      obtain ⟨-, hn, ha⟩ := h
      have hnp : ')' ∉ n ++ '(' :: a := by
        intro hm
        rcases List.mem_append.1 hm with hm | hm
        · exact absurd (hn _ hm).1 (by decide)
        · rcases List.mem_cons.1 hm with heq | hm
          · exact absurd heq (by decide)
          · exact (ha _ hm).2.1 rfl
      have hsh : midItem (TraceItem.call n a) = (n ++ '(' :: a) ++ [')', '\n'] := by
        simp [midItem]
      rw [hsh, expandText_append, expandText_no_paren hnp]
      have : expandText [')', '\n'] = [')', ';', '\n'] := by decide
      rw [this]
      simp [finalItem]
  | delay d t =>
      obtain ⟨-, hdig, -⟩ := h
      have hnp : ')' ∉ warpPre ++ d := by
        intro hm
        rcases List.mem_append.1 hm with hm | hm
        · exact absurd hm (by decide)
        · exact absurd (hdig _ hm) (by decide)
      have hsh : midItem (TraceItem.delay d t) = (warpPre ++ d) ++ [')', '\n'] := by
        simp [midItem]
      rw [hsh, expandText_append, expandText_no_paren hnp]
      have : expandText [')', '\n'] = [')', ';', '\n'] := by decide
      rw [this]
      simp [finalItem]

theorem parens_midTrace :
    ∀ {tr : List TraceItem}, (∀ it ∈ tr, WFItem it) →
      terminateParens (midTrace tr) = finalTrace tr := by
  intro tr
  induction tr with
  | nil => intro _; rfl
  | cons it tr' ih =>
      intro h
      have hit := h it (List.mem_cons_self it tr')
      have hrec := ih (fun x hx => h x (List.mem_cons_of_mem it hx))
      show terminateParens (midItem it ++ midTrace tr') = finalItem it ++ finalTrace tr'
      rw [terminateParens_eq_expandText, expandText_append, expand_midItem hit,
        ← terminateParens_eq_expandText, hrec]

theorem finalItem_no_x {it : TraceItem} (h : WFItem it) : 'x' ∉ finalItem it := by
  cases it with
  | call n a =>
      obtain ⟨-, hn, ha⟩ := h
      intro hm
      simp only [finalItem] at hm
      rcases List.mem_append.1 hm with hm | hm
      · rcases List.mem_append.1 hm with hm | hm
        · exact (hn _ hm).2 rfl
        · rcases List.mem_cons.1 hm with heq | hm
          · exact absurd heq (by decide)
          · exact (ha _ hm).2.2.2.2 rfl
      · exact absurd hm (by decide)
  | delay d t =>
      obtain ⟨-, hdig, -⟩ := h
      intro hm
      simp only [finalItem] at hm
      rcases List.mem_append.1 hm with hm | hm
      · rcases List.mem_append.1 hm with hm | hm
        · exact absurd hm (by decide)
        · exact absurd (hdig _ hm) (by decide)
      · exact absurd hm (by decide)

theorem finalTrace_no_x :
    ∀ {tr : List TraceItem}, (∀ it ∈ tr, WFItem it) → 'x' ∉ finalTrace tr := by
  intro tr
  induction tr with
  | nil => intro _ hm; simpa [finalTrace] using hm
  | cons it tr' ih =>
      intro h hm
      rcases List.mem_append.1 hm with hm | hm
      · exact finalItem_no_x (h it (List.mem_cons_self it tr')) hm
      · exact ih (fun x hx => h x (List.mem_cons_of_mem it hx)) hm

theorem isHexC_ne_nl {c : Char} (h : isHexC c = true) : c ≠ '\n' := by
  intro hc
  subst hc
  simp [isHexC, Char.isDigit] at h

theorem countNL_delayToWarp (s : List Char) :
    countNL (delayToWarp s) = countNL s := by
  refine countNL_applyRW findR3 consuming_findR3 ?_ s
  intro s r rest h
  obtain ⟨ds, mid, -, hds, hmid, hs, hr⟩ := findR3_some h
  have hds0 : ds.count '\n' = 0 :=
    List.count_eq_zero.2 (fun hm => isDigit_ne_nl (hds _ hm) rfl)
  have hmid0 : mid.count '\n' = 0 :=
    List.count_eq_zero.2 (fun hm => hmid _ hm rfl)
  have htd0 : tdColon.count '\n' = 0 := by decide
  have hwp0 : warpPre.count '\n' = 0 := by decide
  rw [hs, hr]
  simp only [countNL, List.count_append, List.count_cons, hds0, hmid0, htd0, hwp0]
  simp
  omega

theorem countNL_terminateParens (s : List Char) :
    countNL (terminateParens s) = countNL s := by
  refine countNL_applyRW findR4 consuming_findR4 ?_ s
  intro s r rest h
  obtain ⟨hs, hr⟩ := findR4_some h
  rw [hs, hr]
  simp [countNL, List.count_cons]

theorem countNL_rewriteAddress (s : List Char) :
    countNL (rewriteAddress s) = countNL s := by
  refine countNL_applyRW findR5 consuming_findR5 ?_ s
  intro s r rest h
  obtain ⟨hx, -, hhex, hs, hr⟩ := findR5_some h
  have hx0 : hx.count '\n' = 0 :=
    List.count_eq_zero.2 (fun hm => isHexC_ne_nl (hhex _ hm) rfl)
  have hap0 : addrPre.count '\n' = 0 := by decide
  rw [hs, hr]
  simp only [countNL, List.count_append, List.count_cons, hx0, hap0]
  simp

/-- C6: for every well-formed raw trace — any number of call lines and delay
annotations, interleaved in any order — the normalizer emits exactly one call
statement per call line and one clock-advance statement per delay annotation,
in the same relative order (`finalTrace` maps the items one-to-one in input
order); moreover the rules that run after the reflow step (delay rewrite,
statement termination, address rewrite) never change the number of lines of
any text.  `WFItem` pins the modelled trace alphabet: names are `[a-zA-z]`
words without `x` (the address rule, settled separately, then stays quiescent
on the trace), arguments avoid the characters that would embed another rule's
pattern, delays are digit runs with word-and-space descriptions. -/
theorem c6_order_preservation (tr : List TraceItem)
    (h : ∀ it ∈ tr, WFItem it) :
    outputToSol (renderTrace tr) = finalTrace tr
    ∧ (∀ s, countNL (delayToWarp s) = countNL s)
    ∧ (∀ s, countNL (terminateParens s) = countNL s)
    ∧ (∀ s, countNL (rewriteAddress s) = countNL s) := by
  refine ⟨?_, countNL_delayToWarp, countNL_terminateParens, countNL_rewriteAddress⟩
  show rewriteAddress (terminateParens (delayToWarp (reflowDelay
    (stripWait (renderTrace tr))))) = finalTrace tr
  rw [stripWait_id_of_no_star (renderTrace_no_star h), reflow_renderTrace h,
    warp_renderTrace h, parens_midTrace h,
    rewriteAddress_id_of_no_x (finalTrace_no_x h)]

/-- Witness for C6 on a three-item trace: call, delay, call. -/
theorem c6_witness :
    (∀ it ∈ [TraceItem.call (("transfer").toList) (("a,100").toList),
        TraceItem.delay (("42").toList) (("seconds").toList),
        TraceItem.call (("claim").toList) []], WFItem it)
    ∧ outputToSol (renderTrace [TraceItem.call (("transfer").toList) (("a,100").toList),
        TraceItem.delay (("42").toList) (("seconds").toList),
        TraceItem.call (("claim").toList) []])
      = finalTrace [TraceItem.call (("transfer").toList) (("a,100").toList),
        TraceItem.delay (("42").toList) (("seconds").toList),
        TraceItem.call (("claim").toList) []] :=
  ⟨by decide, (c6_order_preservation _ (by decide)).1⟩

/-! ## The fillFile claims -/

theorem linesText_append : ∀ (u v : List (List Char)),
    linesText (u ++ v) = linesText u ++ linesText v := by
  intro u v
  induction u with
  | nil => rfl
  | cons l u' ih => simp [linesText, ih]

/-- C2 counterexample: with a second function after the anchor, the greedy
match swallows everything up to the file's last two-space brace line, so the
text between the anchor body and that brace (`AFTER`, the body of `g`) is
destroyed rather than preserved. -/
theorem c2_counterexample :
    containsSub (("AFTER").toList)
        (("before\nfunction test() public \x7b\n  a();\n  \x7d\nAFTER\nfunction g() public \x7b\n  b();\n  \x7d\n").toList) = true
    ∧ containsSub (("AFTER").toList)
        (fillFile (("  z();\n").toList)
          (("before\nfunction test() public \x7b\n  a();\n  \x7d\nAFTER\nfunction g() public \x7b\n  b();\n  \x7d\n").toList)) = false := by
  constructor
  · decide
  · decide

/-- C2 amended: template preservation holds under the proviso that the anchor
body's closing brace is the last line of the file that begins with the
two-space brace (and the anchor occurs once): then the content before the
anchor and the content after the closing brace are byte-identical before and
after injection, and only the anchor body is replaced. -/
theorem c2_amended (content pre post : List Char) (ls : List (List Char))
    (h1 : ∀ l ∈ ls, '\n' ∉ l)
    (h2 : containsSub ('\n' :: sp2Brace) (sp2Brace ++ post) = false)
    (h3 : containsSub anchorStr post = false)
    (h4 : ∀ k, k < pre.length →
      pfx anchorStr ((pre ++ (anchorStr ++ '\n' :: (linesText ls
        ++ (sp2Brace ++ post)))).drop k) = false) :
    fillFile content (pre ++ (anchorStr ++ '\n' :: (linesText ls
        ++ (sp2Brace ++ post))))
      = pre ++ (anchorStr ++ '\n' :: (content ++ (sp2Brace ++ post))) := by
  have h1' : ∀ l ∈ ([] : List Char) :: ls, '\n' ∉ l := by
    intro l hl
    rcases List.mem_cons.1 hl with rfl | hl
    · simp
    · exact h1 l hl
  have hg : greedyLines ('\n' :: (linesText ls ++ (sp2Brace ++ post)))
      = some post := by
    have hgm := greedy_main ([] :: ls) post h1' h2 (by simp)
    simpa [linesText] using hgm
  have hfind : findF content (anchorStr ++ ('\n' :: (linesText ls
      ++ (sp2Brace ++ post))))
      = some (anchorStr ++ '\n' :: content ++ sp2Brace, post) := by
    simp only [findF, pfx_append, List.drop_left, hg]
    simp
  have hnone : ∀ k, k < pre.length →
      findF content ((pre ++ (anchorStr ++ '\n' :: (linesText ls
        ++ (sp2Brace ++ post)))).drop k) = none := by
    intro k hk
    simp [findF, h4 k hk]
  have hid : applyRW (findF content) post = post := by
    refine applyRW_id _ _ (fun k => ?_)
    have hp := pfx_drop_of_not_containsSub h3 k
    simp [findF, hp]
  show applyRW (findF content) _ = _
  rw [applyRW_skip (findF content) pre _ hnone,
    applyRW_fire (findF content) (consuming_findF content) hfind, hid]
  simp

/-- Witness for the amended C2 on a concrete one-function template. -/
theorem c2_witness :
    fillFile (("  z();\n").toList) ((("A\n").toList)
        ++ (anchorStr ++ '\n' :: (linesText [("  a();").toList]
          ++ (sp2Brace ++ ("\n").toList))))
      = (("A\n").toList) ++ (anchorStr ++ '\n' :: ((("  z();\n").toList)
          ++ (sp2Brace ++ ("\n").toList))) :=
  c2_amended (("  z();\n").toList) (("A\n").toList) (("\n").toList)
    [("  a();").toList] (by decide) (by decide) (by decide) (by decide)

/-- C3 counterexample: in a template whose last two-space-brace line carries
trailing content (`  \x7d x`), the replaced region runs through that line's
brace — not through the last brace standing on a line of its own, as the
claim states; the text the claim predicts is not what `fillFile` returns. -/
theorem c3_counterexample :
    fillFile (("  z();\n").toList)
        (("function test() public \x7b\nA\n  \x7d\nB\n  \x7d x\n").toList)
      ≠ ("function test() public \x7b\n  z();\n  \x7d\nB\n  \x7d x\n").toList := by
  decide

/-- C3 amended: the replaced region extends from the anchor signature
greedily through the file's last line that begins with the two-space closing
brace — whether or not that brace stands on a line of its own, and past any
earlier lone-brace line: with body lines `ls1`, a lone `  \x7d` line, further
lines `ls2` and then the final `  \x7d` whose line tail lies in `post`, the
whole stretch collapses to signature, block, brace. -/
theorem c3_amended (content post : List Char) (ls1 ls2 : List (List Char))
    (h1 : ∀ l ∈ ls1, '\n' ∉ l) (h2 : ∀ l ∈ ls2, '\n' ∉ l)
    (h3 : containsSub ('\n' :: sp2Brace) (sp2Brace ++ post) = false)
    (h4 : containsSub anchorStr post = false) :
    fillFile content (anchorStr ++ '\n' :: (linesText ls1 ++ (sp2Brace
        ++ ('\n' :: (linesText ls2 ++ (sp2Brace ++ post))))))
      = anchorStr ++ '\n' :: (content ++ (sp2Brace ++ post)) := by
  have hls : ∀ l ∈ (([] : List Char) :: ls1) ++ [sp2Brace] ++ ls2, '\n' ∉ l := by
    intro l hl
    rcases List.mem_append.1 hl with hl | hl
    · rcases List.mem_append.1 hl with hl | hl
      · rcases List.mem_cons.1 hl with rfl | hl
        · simp
        · exact h1 l hl
      · rcases List.mem_cons.1 hl with rfl | hl
        · decide
        · simp at hl
    · exact h2 l hl
  have hshape : '\n' :: (linesText ls1 ++ (sp2Brace
        ++ ('\n' :: (linesText ls2 ++ (sp2Brace ++ post)))))
      = linesText ((([] : List Char) :: ls1) ++ [sp2Brace] ++ ls2)
          ++ sp2Brace ++ post := by
    rw [linesText_append, linesText_append]
    simp [linesText]
  have hg : greedyLines ('\n' :: (linesText ls1 ++ (sp2Brace
        ++ ('\n' :: (linesText ls2 ++ (sp2Brace ++ post)))))) = some post := by
    rw [hshape]
    exact greedy_main _ post hls h3 (by simp)
  have hfind : findF content (anchorStr ++ ('\n' :: (linesText ls1 ++ (sp2Brace
        ++ ('\n' :: (linesText ls2 ++ (sp2Brace ++ post)))))))
      = some (anchorStr ++ '\n' :: content ++ sp2Brace, post) := by
    simp only [findF, pfx_append, List.drop_left, hg]
    simp
  have hid : applyRW (findF content) post = post := by
    refine applyRW_id _ _ (fun k => ?_)
    have hp := pfx_drop_of_not_containsSub h4 k
    simp [findF, hp]
  show applyRW (findF content) _ = _
  rw [applyRW_fire (findF content) (consuming_findF content) hfind, hid]
  simp

/-- Witness for the amended C3 on the counterexample's template. -/
theorem c3_witness :
    fillFile (("  z();\n").toList) (anchorStr ++ '\n' :: (linesText [("A").toList]
        ++ (sp2Brace ++ ('\n' :: (linesText [("B").toList]
          ++ (sp2Brace ++ (" x\n").toList))))))
      = anchorStr ++ '\n' :: ((("  z();\n").toList)
          ++ (sp2Brace ++ (" x\n").toList)) :=
  c3_amended (("  z();\n").toList) ((" x\n").toList) [("A").toList] [("B").toList]
    (by decide) (by decide) (by decide) (by decide)
